import Mathlib

/-!
Verification of the reference-resolving structural query engine of
openapi-schemer, a CLI that extracts paths, operations and schema names
from OpenAPI documents split across `$ref`-linked YAML files.

The embedding models:
  * YAML block mappings as a mutual inductive (`Val` / `Entries`):
    scalar values keep the verbatim source text of the flow node
    (including any quote characters, as tree-sitter's `utf8_text` does).
  * the document query primitive `get_children_by_key` and the top-level
    splitter `get_top_level_keys` (src/bindings/operation.rs): each query
    match corresponds to one immediate child mapping pair of the matched
    value; matches are visited in document order; the result `HashMap` is
    modelled as an association list built by replace-or-append insertion,
    in document order.  Rust `HashMap` iteration order is unspecified, so
    every walker loop over such a map takes an explicit `reorder`
    parameter standing for the iteration order chosen by the hash map;
    theorems either hold for every permutation or exhibit a particular
    legal order.
  * the three `*Parser2` walkers (path.rs / operation.rs / schema.rs);
    Rust panics (`unwrap`, `expect`, `panic!`) become `Except` errors.
  * the content provider (src/content/mod.rs), parameterised by the
    external collaborators `read` (file system) and `canon`
    (`fs::canonicalize`), both fallible.
  * the textual side: a canonical renderer producing the source text of a
    document (two-space indent) and a verified parser for that text.  In
    the source, the value stored for each child is the verbatim span of
    the child's mapping-pair node, which downstream code re-parses as a
    standalone document; here the `Entries` payload of `Children` denotes
    those pair spans, and the render/parse round trip discharges the
    re-entrancy contract.
-/

mutual

inductive Val : Type where
  | scalar (s : String)
  | map (es : Entries)

inductive Entries : Type where
  | nil
  | cons (k : String) (v : Val) (rest : Entries)

end

mutual

def valDecEq : (a b : Val) → Decidable (a = b)
  | .scalar s, .scalar t =>
    if h : s = t then .isTrue (by rw [h]) else .isFalse (by intro hc; cases hc; exact h rfl)
  | .scalar _, .map _ => .isFalse (by intro hc; cases hc)
  | .map _, .scalar _ => .isFalse (by intro hc; cases hc)
  | .map es, .map fs =>
    match entriesDecEq es fs with
    | .isTrue h => .isTrue (by rw [h])
    | .isFalse h => .isFalse (by intro hc; cases hc; exact h rfl)

def entriesDecEq : (a b : Entries) → Decidable (a = b)
  | .nil, .nil => .isTrue rfl
  | .nil, .cons _ _ _ => .isFalse (by intro hc; cases hc)
  | .cons _ _ _, .nil => .isFalse (by intro hc; cases hc)
  | .cons k v r, .cons k' v' r' =>
    if hk : k = k' then
      match valDecEq v v' with
      | .isTrue hv =>
        match entriesDecEq r r' with
        | .isTrue hr => .isTrue (by rw [hk, hv, hr])
        | .isFalse hr => .isFalse (by intro hc; cases hc; exact hr rfl)
      | .isFalse hv => .isFalse (by intro hc; cases hc; exact hv rfl)
    else .isFalse (by intro hc; cases hc; exact hk rfl)

end

instance : DecidableEq Val := valDecEq

instance : DecidableEq Entries := entriesDecEq

/-- First mapping entry with the given key text, as matched by the
tree-sitter key query at the top level of a parsed document. -/
def findE (key : String) : Entries → Option Val
  | .nil => none
  | .cons k v rest => if k = key then some v else findE key rest

/-- The entries as a plain list of pairs (used when a walker iterates the
children `HashMap`). -/
def toListE : Entries → List (String × Val)
  | .nil => []
  | .cons k v rest => (k, v) :: toListE rest

/-- `HashMap::insert`: replace the value when the key is present,
otherwise add the binding. -/
def insertE (es : Entries) (k : String) (v : Val) : Entries :=
  match es with
  | .nil => .cons k v .nil
  | .cons k' v' rest => if k' = k then .cons k' v rest else .cons k' v' (insertE rest k v)

/-- Fold `insertE` over a list of entries in document order (building the
result `HashMap` of a query loop). -/
def hashInsertAll (acc : Entries) : Entries → Entries
  | .nil => acc
  | .cons k v rest => hashInsertAll (insertE acc k v) rest

def memE (k : String) (v : Val) : Entries → Bool
  | .nil => false
  | .cons k' v' rest => (decide (k' = k) && decide (v' = v)) || memE k v rest

/-- The immediate child mapping pairs of a value node: a scalar has none,
a block mapping has its entries. -/
def childPairs : Val → Entries
  | .scalar _ => .nil
  | .map es => es

/- ## Canonical source text of a document

`renderE i es` is the list of source lines of a block mapping whose keys
sit at column `i`, children indented two further columns (the layout
assumed throughout the repository's fixtures).  `renderPair 0 k v` is the
verbatim span of one mapping-pair node as extracted by the query engine:
the key starts at column 0 of the span and nested lines keep their
deeper indentation. -/

def spacesC (n : Nat) : List Char := List.replicate n ' '

mutual

def renderPair (i : Nat) (k : String) : Val → List (List Char)
  | .scalar s => [spacesC i ++ k.data ++ [':', ' '] ++ s.data]
  | .map es => (spacesC i ++ k.data ++ [':']) :: renderE (i + 2) es

def renderE (i : Nat) : Entries → List (List Char)
  | .nil => []
  | .cons k v rest => renderPair i k v ++ renderE i rest

end

/-- Join lines with newline characters. -/
def joinNL : List (List Char) → List Char
  | [] => []
  | [l] => l
  | l :: ls => l ++ '\n' :: joinNL ls

/-- The source text of a value node (`utf8_text` of the `child-value`
capture): a scalar is its verbatim flow-node text; for a block value the
canonical rendering of its entries. -/
def valText : Val → String
  | .scalar s => s
  | .map es => ⟨joinNL (renderE 2 es)⟩

/-- `.replace("'", "").replace("\"", "")` from `get_children_by_key`:
every single and double quote character is removed. -/
def stripQuotes (s : String) : String :=
  ⟨s.data.filter (fun c => !(c = '\'' || c = '"'))⟩

/-- The `ChildrenOrRef` enum of src/bindings/operation.rs.  `Children`
carries the result `HashMap`; each entry `(k, v)` stands for the binding
of child key `k` to the verbatim span of that child's mapping-pair node
(key plus value), here denoted structurally by the pair itself. -/
inductive ChildrenOrRef : Type where
  | Children (es : Entries)
  | Ref (r : String)
deriving DecidableEq

/-- The query-match loop of `get_children_by_key`: visit the immediate
child pairs in document order; on a child whose key text is `$ref`,
return `Ref` with the quote-stripped value text at once (discarding the
accumulated map and any later siblings); otherwise insert the child into
the result map. -/
def processChildren (acc : Entries) : Entries → ChildrenOrRef
  | .nil => .Children acc
  | .cons k v rest =>
    if k = "$ref" then .Ref (stripQuotes (valText v))
    else processChildren (insertE acc k v) rest

/-- `get_children_by_key` (src/bindings/operation.rs, lines 139-180).
The tree-sitter query `create_yaml_context_query(key)` is not present
under src/; per the spec (section 4.1 and section 6) it matches the mapping entry
whose key text equals `key` at the top level of the document and binds
each immediate child mapping pair of its value.  No match at all leaves
the result `HashMap` empty, so a missing key yields `Children .nil`. -/
def get_children_by_key (key : String) (doc : Entries) : ChildrenOrRef :=
  match findE key doc with
  | none => .Children .nil
  | some v => processChildren .nil (childPairs v)

/-- `get_top_level_keys` (src/bindings/operation.rs, lines 81-109).  The
query `create_top_level_yaml_context_query()` is not present under src/;
per the spec (section 4.2) it binds every top-level mapping pair of the
document.  Every match is inserted into the result map — there is no
`$ref` check — and the function always returns `Children`. -/
def get_top_level_keys (doc : Entries) : ChildrenOrRef :=
  .Children (hashInsertAll .nil doc)

/- ## Parser for the canonical text

A fuel-indexed indentation parser: `parseE f j ls` parses the longest run
of sibling mapping pairs whose keys sit exactly at column `j`, returning
the parsed entries and the unconsumed lines (whose head, if any, is less
indented than `j`).  Sufficient fuel is twice the number of lines plus
one. -/

def indentOf (l : List Char) : Nat := (l.takeWhile (· = ' ')).length

def bodyOf (l : List Char) : List Char := l.dropWhile (· = ' ')

/-- Split the de-indented body of a line into key and optional scalar:
`k: v` gives `(k, some v)`, a bare `k:` gives `(k, none)`.  The key ends
at the first colon. -/
def splitKV (b : List Char) : Option (String × Option String) :=
  match b.dropWhile (· ≠ ':') with
  | [] => none
  | _ :: rest =>
    match rest with
    | [] => some (⟨b.takeWhile (· ≠ ':')⟩, none)
    | c :: s => if c = ' ' then some (⟨b.takeWhile (· ≠ ':')⟩, some ⟨s⟩) else none

def parseE : Nat → Nat → List (List Char) → Option (Entries × List (List Char))
  | 0, _, _ => none
  | _ + 1, _, [] => some (.nil, [])
  | fuel + 1, j, l :: rest =>
    if indentOf l < j then some (.nil, l :: rest)
    else if j < indentOf l then none
    else
      match splitKV (bodyOf l) with
      | none => none
      | some (k, some s) =>
        match parseE fuel j rest with
        | some (es, rem) => some (.cons k (.scalar s) es, rem)
        | none => none
      | some (k, none) =>
        match rest with
        | [] => none
        | l2 :: _ =>
          if j < indentOf l2 then
            match parseE fuel (indentOf l2) rest with
            | some (es2, rem) =>
              match parseE fuel j rem with
              | some (es, rem2) => some (.cons k (.map es2) es, rem2)
              | none => none
            | none => none
          else none

/-- Parse a complete standalone document from its lines. -/
def parseDocLines (ls : List (List Char)) : Option Entries :=
  match parseE (2 * ls.length + 1) 0 ls with
  | some (es, []) => some es
  | _ => none

def splitOnCharGo (sep : Char) : List Char → List (List Char)
  | [] => [[]]
  | c :: cs =>
    let r := splitOnCharGo sep cs
    if c = sep then [] :: r
    else
      match r with
      | [] => [[c]]
      | h :: t => (c :: h) :: t

/-- Parse a standalone document from raw text (lines split on newline). -/
def parseDocC (s : String) : Option Entries :=
  parseDocLines (splitOnCharGo '\n' s.data)

/- ## Well-formed documents

The round-trip holds for documents whose keys are nonempty, contain no
colon or newline and do not start with a space, whose scalars contain no
newline, and whose block values are nonempty mappings (a bare `k:` line
denotes a null scalar, not an empty mapping). -/

def keyOk (k : String) : Bool :=
  !k.data.isEmpty && decide (':' ∉ k.data) && decide ('\n' ∉ k.data) &&
    decide (k.data.head? ≠ some ' ')

def scalarOk (s : String) : Bool := decide ('\n' ∉ s.data)

mutual

def wfVal : Val → Bool
  | .scalar s => scalarOk s
  | .map es =>
    (match es with
     | .nil => false
     | .cons _ _ _ => true) && wfE es

def wfE : Entries → Bool
  | .nil => true
  | .cons k v rest => keyOk k && wfVal v && wfE rest

end

/- ## Leaf extraction for operation identifiers

`get_operation_nodes` reads `children["operationId"]` — the span
`"operationId: <value>"` of the pair node — and computes
`.split("operationId:").last().unwrap().trim()`. -/

def startsWithPat : List Char → List Char → Bool
  | [], _ => true
  | _ :: _, [] => false
  | p :: ps, c :: cs => p = c && startsWithPat ps cs

/-- Split on non-overlapping occurrences of `pat`, left to right
(`str::split` for a substring pattern).  Fuel is the input length. -/
def splitSubGo (pat : List Char) : Nat → List Char → List Char → List (List Char)
  | _, acc, [] => [acc.reverse]
  | 0, acc, c :: cs => [acc.reverse ++ c :: cs]
  | f + 1, acc, c :: cs =>
    if startsWithPat pat (c :: cs) then
      acc.reverse :: splitSubGo pat f [] (List.drop pat.length (c :: cs))
    else
      splitSubGo pat f (c :: acc) cs

def splitSub (pat cs : List Char) : List (List Char) :=
  splitSubGo pat cs.length [] cs

/-- `str::trim`: drop whitespace from both ends. -/
def trimChars (cs : List Char) : List Char :=
  ((cs.dropWhile Char.isWhitespace).reverse.dropWhile Char.isWhitespace).reverse

/-- The operation walker's leaf step: last segment of the span split on
the substring `operationId:`, trimmed. -/
def extractOp (span : String) : String :=
  ⟨trimChars ((splitSub "operationId:".data span.data).getLastD [])⟩

/-- The span text of one mapping-pair node, as handed to downstream code
(`utf8_text` of the `child-context` capture, joined lines). -/
def spanString (k : String) (v : Val) : String :=
  ⟨joinNL (renderPair 0 k v)⟩

/- ## Walkers (the `*Parser2` implementations) -/

deriving instance DecidableEq for Except

inductive WalkErr : Type where
  /-- `ContentProviderMap::get_content` `unwrap` panic: document absent
  from the pre-loaded map. -/
  | unresolvedRef
  /-- `panic!("Found $ref when following $ref. Aborting.")`. -/
  | refChain
  /-- `children.get("operationId").unwrap()` panic. -/
  | missingOperationId
  /-- `.expect("Did not find schemas within components")` panic. -/
  | missingSchemas
  /-- `panic!("Expected structs under schemas key but found $ref instead.")`. -/
  | schemasIsRef
deriving DecidableEq

/-- The walker-facing content provider (`Box<dyn ContentProvider>`): a
read-only map from document path to its already-parsed top-level
entries. -/
def provGet (prov : List (String × Entries)) (p : String) : Option Entries :=
  (prov.find? (fun e => e.1 = p)).map (·.2)

/-- The shared follow-one-reference step of every walker: if the lookup
result is a `Ref`, fetch the referenced document and split its top level;
the subsequent match still carries the (unreachable) `Ref` arm that
panics with "Found $ref when following $ref. Aborting.". -/
def resolveChildren (prov : List (String × Entries)) :
    ChildrenOrRef → Except WalkErr Entries
  | .Children es => .ok es
  | .Ref r =>
    match provGet prov r with
    | none => .error .unresolvedRef
    | some d =>
      match get_top_level_keys d with
      | .Children es => .ok es
      | .Ref _ => .error .refChain

/-- `TreeSitterPathParser2::get_path_nodes` (src/bindings/path.rs, lines
64-84).  `reorder` stands for the iteration order of the children
`HashMap`. -/
def get_path_nodes (reorder : List (String × Val) → List (String × Val))
    (prov : List (String × Entries)) : Except WalkErr (List String) :=
  match provGet prov "#" with
  | none => .error .unresolvedRef
  | some root =>
    match resolveChildren prov (get_children_by_key "paths" root) with
    | .error e => .error e
    | .ok cs => .ok ((reorder (toListE cs)).map Prod.fst)

/-- Inner loop of `get_operation_nodes` over one path's method map (in
the iteration order chosen by the `HashMap`). -/
def methodsLoop (prov : List (String × Entries)) :
    List (String × Val) → Except WalkErr (List String)
  | [] => .ok []
  | (m, mv) :: rest =>
    match resolveChildren prov (get_children_by_key m (.cons m mv .nil)) with
    | .error e => .error e
    | .ok cs =>
      match findE "operationId" cs with
      | none => .error .missingOperationId
      | some v =>
        match methodsLoop prov rest with
        | .error e => .error e
        | .ok ops => .ok (extractOp (spanString "operationId" v) :: ops)

/-- Outer loop of `get_operation_nodes` over the path map. -/
def pathsLoop (reorder : List (String × Val) → List (String × Val))
    (prov : List (String × Entries)) :
    List (String × Val) → Except WalkErr (List String)
  | [] => .ok []
  | (p, pv) :: rest =>
    match resolveChildren prov (get_children_by_key p (.cons p pv .nil)) with
    | .error e => .error e
    | .ok ms =>
      match methodsLoop prov (reorder (toListE ms)) with
      | .error e => .error e
      | .ok ops =>
        match pathsLoop reorder prov rest with
        | .error e => .error e
        | .ok rest' => .ok (ops ++ rest')

/-- `TreeSitterOperationParser2::get_operation_nodes`
(src/bindings/operation.rs, lines 19-79). -/
def get_operation_nodes (reorder : List (String × Val) → List (String × Val))
    (prov : List (String × Entries)) : Except WalkErr (List String) :=
  match provGet prov "#" with
  | none => .error .unresolvedRef
  | some root =>
    match resolveChildren prov (get_children_by_key "paths" root) with
    | .error e => .error e
    | .ok cs => pathsLoop reorder prov (reorder (toListE cs))

/-- `TreeSitterSchemaParser2::get_schema_nodes` (src/bindings/schema.rs,
lines 64-98). -/
def get_schema_nodes (reorder : List (String × Val) → List (String × Val))
    (prov : List (String × Entries)) : Except WalkErr (List String) :=
  match provGet prov "#" with
  | none => .error .unresolvedRef
  | some root =>
    match resolveChildren prov (get_children_by_key "components" root) with
    | .error e => .error e
    | .ok cs =>
      match findE "schemas" cs with
      | none => .error .missingSchemas
      | some sv =>
        match get_children_by_key "schemas" (.cons "schemas" sv .nil) with
        | .Ref _ => .error .schemasIsRef
        | .Children scs => .ok ((reorder (toListE scs)).map Prod.fst)

/- ## Content provider (src/content/mod.rs)

`read` models `get_content_for_path` (a file read whose failure is a
panic) and `canon` models `fs::canonicalize` (an `io::Result` unwrapped
at every use), both external collaborators. -/

def insertKV (m : List (String × String)) (k v : String) : List (String × String) :=
  match m with
  | [] => [(k, v)]
  | (k', v') :: rest => if k' = k then (k', v) :: rest else (k', v') :: insertKV rest k v

def lookupS (m : List (String × String)) (k : String) : Option String :=
  (m.find? (fun e => e.1 = k)).map (·.2)

def joinWith (sep : Char) : List (List Char) → List Char
  | [] => []
  | [l] => l
  | l :: ls => l ++ sep :: joinWith sep ls

/-- `Path::parent` on a string path: drop the last `/`-separated
component; `""` and `"/"` have no parent. -/
def parentDir (p : String) : Option String :=
  if p = "" || p = "/" then none
  else some ⟨joinWith '/' ((splitOnCharGo '/' p.data).dropLast)⟩

/-- `PathBuf::push`: an absolute component replaces the whole path. -/
def pathJoin (dir r : String) : String :=
  if startsWithPat ['/'] r.data then r
  else if dir = "" then r
  else if dir.data.getLast? = some '/' then dir ++ r
  else dir ++ "/" ++ r

mutual

def findRefsV : Val → List String
  | .scalar _ => []
  | .map es => findRefsE es

def findRefsE : Entries → List String
  | .nil => []
  | .cons k v rest =>
    (if k = "$ref" then [stripQuotes (valText v)] else []) ++ findRefsV v ++ findRefsE rest

end

/-- Modelled from the spec: `bindings::find_refs` is called from
`ContentProviderMap::from_open_api_yaml` but its definition is not under
src/.  Per the spec (section 4.3) it parses the document once and extracts
every `$ref` value anywhere in it — a flat scan over the whole tree, not
only at structurally expected positions — with quote characters stripped
(the mocked fixtures return the unquoted path text). -/
def find_refs (content : String) : List String :=
  match parseDocC content with
  | none => []
  | some es => findRefsE es

/-- `ContentProviderMap`: the contents map plus the root file path. -/
structure ProviderState : Type where
  contents : List (String × String)
  root_file : String
deriving DecidableEq

/-- The pre-load loop of `from_open_api_yaml`: resolve each discovered
external reference against the root's directory, canonicalize, read and
insert. -/
def loadRefs (read canon : String → Option String) (wd : String) :
    List String → List (String × String) → Option (List (String × String))
  | [], m => some m
  | r :: rs, m =>
    match canon (pathJoin wd r) with
    | none => none
    | some full =>
      match read full with
      | none => none
      | some c => loadRefs read canon wd rs (insertKV m full c)

/-- `ContentProviderMap::from_open_api_yaml` (src/content/mod.rs, lines
36-61): read the root document, discover its `$ref` values, keep those
not starting with `#`, pre-load each, and bind both the root path and the
synthetic marker `#` to the root content. -/
def from_open_api_yaml (read canon : String → Option String) (path : String) :
    Option ProviderState :=
  match parentDir path with
  | none => none
  | some wd =>
    match read path with
    | none => none
    | some content =>
      let externalRefs :=
        (find_refs content).filter (fun r => !startsWithPat ['#'] r.data)
      match loadRefs read canon wd externalRefs
          (insertKV (insertKV [] path content) "#" content) with
      | none => none
      | some m => some ⟨m, path⟩

/-- `ContentProviderMap::get_content` (src/content/mod.rs, lines 80-92):
the marker `#` reads the root file's entry; any other path is joined to
the root file's directory, canonicalized and looked up; a missing entry
is an `unwrap` panic (`none`). -/
def get_content (canon : String → Option String) (st : ProviderState)
    (p : String) : Option String :=
  if p = "#" then lookupS st.contents st.root_file
  else
    match parentDir st.root_file with
    | none => none
    | some rd =>
      match canon (pathJoin rd p) with
      | none => none
      | some full => lookupS st.contents full

/- ## Basic lemmas about the query-match loop -/

lemma processChildren_ref :
    ∀ (es : Entries) (acc : Entries) (rv : Val), findE "$ref" es = some rv →
      processChildren acc es = .Ref (stripQuotes (valText rv))
  | .nil, _, _, h => by simp [findE] at h
  | .cons k v rest, acc, rv, h => by
    unfold processChildren
    unfold findE at h
    by_cases hk : k = "$ref"
    · rw [if_pos hk] at h
      rw [if_pos hk]
      injection h with h2
      rw [h2]
    · rw [if_neg hk] at h
      rw [if_neg hk]
      exact processChildren_ref rest _ rv h

lemma processChildren_noRef :
    ∀ (es : Entries) (acc : Entries), findE "$ref" es = none →
      processChildren acc es = .Children (hashInsertAll acc es)
  | .nil, _, _ => rfl
  | .cons k v rest, acc, h => by
    unfold processChildren hashInsertAll
    unfold findE at h
    by_cases hk : k = "$ref"
    · rw [if_pos hk] at h
      exact absurd h (by simp)
    · rw [if_neg hk] at h
      rw [if_neg hk]
      exact processChildren_noRef rest _ h

lemma children_empty_of_missing_key (key : String) (doc : Entries)
    (h : findE key doc = none) : get_children_by_key key doc = .Children .nil := by
  unfold get_children_by_key
  rw [h]

/-- C1: if among the immediate children of the value under the parent key
some child key equals the literal `$ref`, then `get_children_by_key`
returns the `Reference` variant carrying that child's value text with
quote characters stripped, and every other sibling entry is discarded
(the result is `Ref`, not `Children`, so no sibling survives). -/
theorem c1_ref_collapses (key : String) (doc : Entries) (v rv : Val)
    (hfind : findE key doc = some v)
    (href : findE "$ref" (childPairs v) = some rv) :
    get_children_by_key key doc = .Ref (stripQuotes (valText rv)) := by
  unfold get_children_by_key
  rw [hfind]
  exact processChildren_ref _ _ _ href

/-- The sibling children of the `get_children_by_key_ref` test fixture:
two ordinary entries followed by `$ref: '#/fake/ref'`. -/
def refChildren : Entries :=
  .cons "test1" (.scalar "a")
    (.cons "test2" (.scalar "b") (.cons "$ref" (.scalar "'#/fake/ref'") .nil))

def refFixture : Entries := .cons "test" (.map refChildren) .nil

/-- Witness for C1 at the fixture of the `get_children_by_key_ref` test:
three siblings, the last being `$ref: '#/fake/ref'`; the whole result
collapses to `Ref "#/fake/ref"`. -/
theorem c1_ref_collapses_witness :
    findE "test" refFixture = some (.map refChildren) ∧
    findE "$ref" (childPairs (.map refChildren)) = some (.scalar "'#/fake/ref'") ∧
    get_children_by_key "test" refFixture = .Ref "#/fake/ref" :=
  ⟨by decide, by decide,
    (c1_ref_collapses "test" refFixture (.map refChildren) (.scalar "'#/fake/ref'")
      (by decide) (by decide)).trans (by decide)⟩

/-- C3 counterexample: on a document without the requested key,
`get_children_by_key` returns an empty `Children` mapping.  Its return
type `ChildrenOrRef` has no error variant at all, so no
`StructuralKeyMissing` error is signalled to the caller, contradicting
the claim that a missing key "signals an error … and does not return an
empty Children result". -/
theorem c3_missing_key_counterexample :
    get_children_by_key "paths" (.cons "foo" (.scalar "1") .nil) = .Children .nil := by
  decide

/-- C3 amended: for every document and every key that does not occur as a
mapping key at the expected position, `get_children_by_key` returns
`Children` with an empty mapping; no error is signalled at this layer
(walkers may fail only later, when they look up a mandatory child in the
empty result). -/
theorem c3_missing_key_amended (key : String) (doc : Entries)
    (h : findE key doc = none) :
    get_children_by_key key doc = .Children .nil :=
  children_empty_of_missing_key key doc h

/-- Witness for the amended C3. -/
theorem c3_missing_key_amended_witness :
    findE "paths" (.cons "info" (.scalar "x") .nil) = none ∧
    get_children_by_key "paths" (.cons "info" (.scalar "x") .nil) = .Children .nil :=
  ⟨by decide, c3_missing_key_amended "paths" _ (by decide)⟩

/-- C2: evaluation of the code at the failing input.  Root document
`paths: {$ref: P}` where document `P` is itself `$ref: Q`.  The top-level
splitter returns `Children` with `$ref` as an ordinary child key (it
performs no `$ref` check), so the path walk completes with `ok ["$ref"]`
instead of aborting: the `panic!("Found $ref when following $ref.
Aborting.")` arm is unreachable, contradicting the claimed fatal
reference-chain abort. -/
theorem c2_ref_chain_not_fatal :
    get_top_level_keys (.cons "$ref" (.scalar "Q") .nil) =
      .Children (.cons "$ref" (.scalar "Q") .nil) ∧
    get_path_nodes id
      [("#", .cons "paths" (.map (.cons "$ref" (.scalar "P") .nil)) .nil),
       ("P", .cons "$ref" (.scalar "Q") .nil)] = .ok ["$ref"] := by
  exact ⟨by decide, by decide⟩

/-- C9: a document in which the `components` key is entirely absent makes
the schema walker fail (the `expect("Did not find schemas within
components")` panic on the empty children map) — it does not return an
empty list.  This is the missing-structural-key failure the spec calls
StructuralKeyMissing. -/
theorem c9_missing_components_fatal
    (reorder : List (String × Val) → List (String × Val))
    (prov : List (String × Entries)) (root : Entries)
    (hroot : provGet prov "#" = some root)
    (hmiss : findE "components" root = none) :
    get_schema_nodes reorder prov = .error .missingSchemas := by
  have hcomp := children_empty_of_missing_key "components" root hmiss
  simp only [get_schema_nodes, hroot, hcomp, resolveChildren, findE]

def noComponentsRoot : Entries := .cons "openapi" (.scalar "3") .nil

/-- Witness for C9: a root document with only an `openapi` key. -/
theorem c9_missing_components_fatal_witness :
    provGet [("#", noComponentsRoot)] "#" = some noComponentsRoot ∧
    findE "components" noComponentsRoot = none ∧
    get_schema_nodes id [("#", noComponentsRoot)] = .error .missingSchemas :=
  ⟨by decide, by decide,
    c9_missing_components_fatal id [("#", noComponentsRoot)] noComponentsRoot
      (by decide) (by decide)⟩

/-- C5: replacing `paths: {$ref: r}` (where the referenced document's
top-level entries are the path entries) by the inlined `paths:` mapping
with the same entries leaves the path walker's output unchanged — in
fact literally equal, for every iteration order.  The hypotheses say the
inline entries are not themselves a reference mapping and the reference
does not collide with the synthetic root marker. -/
theorem c5_ref_inline_same_paths (es : Entries) (r : String)
    (reorder : List (String × Val) → List (String × Val))
    (h1 : findE "$ref" es = none) (h2 : stripQuotes r ≠ "#") :
    get_path_nodes reorder
      [("#", .cons "paths" (.map (.cons "$ref" (.scalar r) .nil)) .nil),
       (stripQuotes r, es)] =
    get_path_nodes reorder [("#", .cons "paths" (.map es) .nil)] := by
  have hL : get_children_by_key "paths"
      (.cons "paths" (.map (.cons "$ref" (.scalar r) .nil)) .nil) =
      .Ref (stripQuotes r) := by
    simp [get_children_by_key, findE, childPairs, processChildren, valText]
  have hR : get_children_by_key "paths" (.cons "paths" (.map es) .nil) =
      .Children (hashInsertAll .nil es) := by
    simp only [get_children_by_key, findE, if_pos rfl, childPairs]
    exact processChildren_noRef es .nil h1
  have h2' : ¬ ("#" = stripQuotes r) := fun hc => h2 hc.symm
  have hpgL : provGet
      [("#", .cons "paths" (.map (.cons "$ref" (.scalar r) .nil)) .nil),
       (stripQuotes r, es)] "#" =
      some (.cons "paths" (.map (.cons "$ref" (.scalar r) .nil)) .nil) := by
    simp [provGet, List.find?]
  have hpgRef : provGet
      [("#", .cons "paths" (.map (.cons "$ref" (.scalar r) .nil)) .nil),
       (stripQuotes r, es)] (stripQuotes r) = some es := by
    simp [provGet, List.find?, h2']
  have hpgR : provGet [("#", .cons "paths" (.map es) .nil)] "#" =
      some (.cons "paths" (.map es) .nil) := by
    simp [provGet, List.find?]
  simp only [get_path_nodes, hpgL, hpgR, hL, hR, resolveChildren, hpgRef,
    get_top_level_keys]

/- ## The render/parse round trip -/

mutual

def nlPair : Val → Nat
  | .scalar _ => 1
  | .map es => 1 + nlE es

def nlE : Entries → Nat
  | .nil => 0
  | .cons _ v rest => nlPair v + nlE rest

end

mutual

theorem renderPair_length (i : Nat) (k : String) :
    ∀ (v : Val), (renderPair i k v).length = nlPair v
  | .scalar _ => rfl
  | .map es => by
    simp [renderPair, nlPair, renderE_length (i + 2) es]
    omega

theorem renderE_length (i : Nat) :
    ∀ (es : Entries), (renderE i es).length = nlE es
  | .nil => rfl
  | .cons k v rest => by
    simp [renderE, nlE, renderPair_length i k v, renderE_length i rest]

end

lemma takeWhile_spaces_append (n : Nat) (cs : List Char) :
    (spacesC n ++ cs).takeWhile (· = ' ') = spacesC n ++ cs.takeWhile (· = ' ') := by
  induction n with
  | zero => rfl
  | succ m ih => simp [spacesC, List.replicate_succ, List.takeWhile_cons, ih]

lemma dropWhile_spaces_append (n : Nat) (cs : List Char) :
    (spacesC n ++ cs).dropWhile (· = ' ') = cs.dropWhile (· = ' ') := by
  induction n with
  | zero => rfl
  | succ m ih => simp [spacesC, List.replicate_succ, List.dropWhile_cons, ih]

lemma indentOf_spaces_cons (j : Nat) (c : Char) (cs : List Char) (h : c ≠ ' ') :
    indentOf (spacesC j ++ c :: cs) = j := by
  unfold indentOf
  rw [takeWhile_spaces_append]
  rw [List.takeWhile_cons_of_neg (by simpa using h)]
  simp [spacesC]

lemma bodyOf_spaces_cons (j : Nat) (c : Char) (cs : List Char) (h : c ≠ ' ') :
    bodyOf (spacesC j ++ c :: cs) = c :: cs := by
  unfold bodyOf
  rw [dropWhile_spaces_append]
  rw [List.dropWhile_cons_of_neg (by simpa using h)]

lemma takeWhile_no_colon : ∀ (cs r : List Char), (∀ c ∈ cs, c ≠ ':') →
    (cs ++ ':' :: r).takeWhile (· ≠ ':') = cs
  | [], r, _ => by simp [List.takeWhile_cons]
  | c :: cs, r, h => by
    rw [List.cons_append, List.takeWhile_cons_of_pos (by simpa using h c (by simp))]
    rw [takeWhile_no_colon cs r (fun c' hc' => h c' (by simp [hc']))]

lemma dropWhile_no_colon : ∀ (cs r : List Char), (∀ c ∈ cs, c ≠ ':') →
    (cs ++ ':' :: r).dropWhile (· ≠ ':') = ':' :: r
  | [], r, _ => by simp [List.dropWhile_cons]
  | c :: cs, r, h => by
    rw [List.cons_append, List.dropWhile_cons_of_pos (by simpa using h c (by simp))]
    exact dropWhile_no_colon cs r (fun c' hc' => h c' (by simp [hc']))

lemma keyOk_parts {k : String} (h : keyOk k = true) :
    k.data ≠ [] ∧ (∀ c ∈ k.data, c ≠ ':') ∧ k.data.head? ≠ some ' ' := by
  simp only [keyOk, Bool.and_eq_true, Bool.not_eq_true', decide_eq_true_eq,
    List.isEmpty_eq_false_iff_exists_mem] at h
  obtain ⟨⟨⟨h1, h2⟩, _⟩, h4⟩ := h
  refine ⟨?_, ?_, h4⟩
  · obtain ⟨x, hx⟩ := h1
    intro hc
    rw [hc] at hx
    exact absurd hx (List.not_mem_nil x)
  · intro c hc hceq
    rw [hceq] at hc
    exact h2 hc

lemma splitKV_scalar (k s : String) (hcol : ∀ c ∈ k.data, c ≠ ':') :
    splitKV (k.data ++ ':' :: ' ' :: s.data) = some (k, some s) := by
  unfold splitKV
  rw [dropWhile_no_colon _ _ hcol, takeWhile_no_colon _ _ hcol]
  rfl

lemma splitKV_mapKey (k : String) (hcol : ∀ c ∈ k.data, c ≠ ':') :
    splitKV (k.data ++ [':']) = some (k, none) := by
  unfold splitKV
  rw [dropWhile_no_colon k.data [] hcol, takeWhile_no_colon k.data [] hcol]

lemma keyOk_shape {k : String} (h : keyOk k = true) :
    ∃ c cs, k.data = c :: cs ∧ c ≠ ' ' ∧ (∀ x ∈ k.data, x ≠ ':') := by
  obtain ⟨hne, hcol, hhd⟩ := keyOk_parts h
  cases hk : k.data with
  | nil => exact absurd hk hne
  | cons c cs =>
    refine ⟨c, cs, rfl, ?_, by rw [← hk] at *; exact hcol⟩
    intro hc
    apply hhd
    rw [hk, hc]
    rfl

lemma wfE_cons_parts {k : String} {v : Val} {rest : Entries}
    (h : wfE (.cons k v rest) = true) :
    keyOk k = true ∧ wfVal v = true ∧ wfE rest = true := by
  simp only [wfE, Bool.and_eq_true] at h
  exact ⟨h.1.1, h.1.2, h.2⟩

lemma wfVal_map_parts {es : Entries} (h : wfVal (.map es) = true) :
    (∃ k v r, es = .cons k v r) ∧ wfE es = true := by
  simp only [wfVal, Bool.and_eq_true] at h
  obtain ⟨h1, h2⟩ := h
  refine ⟨?_, h2⟩
  cases es with
  | nil => simp at h1
  | cons k v r => exact ⟨k, v, r, rfl⟩

/-- Indentation and body of a line that starts with `j` spaces followed
by a well-formed key. -/
lemma lineStart_facts (j : Nat) (k : String) (tail : List Char) (hk : keyOk k = true) :
    indentOf (spacesC j ++ (k.data ++ tail)) = j ∧
    bodyOf (spacesC j ++ (k.data ++ tail)) = k.data ++ tail := by
  obtain ⟨c, cs, hkd, hsp, _⟩ := keyOk_shape hk
  rw [hkd, List.cons_append]
  exact ⟨indentOf_spaces_cons j c _ hsp, bodyOf_spaces_cons j c _ hsp⟩

/-- The head of the unparsed remainder is less indented than `j` (or
there is no remainder): the exit condition of a sibling block. -/
def hdLt (j : Nat) : List (List Char) → Prop
  | [] => True
  | l :: _ => indentOf l < j

lemma hdLt_mono {j j' : Nat} {ls : List (List Char)} (h : hdLt j ls) (hle : j ≤ j') :
    hdLt j' ls := by
  cases ls with
  | nil => trivial
  | cons l t => exact lt_of_lt_of_le h hle

lemma renderE_cons_head (i : Nat) (k : String) (v : Val) (rest : Entries)
    (hk : keyOk k = true) :
    ∃ l t, renderE i (.cons k v rest) = l :: t ∧ indentOf l = i := by
  cases v with
  | scalar s =>
    refine ⟨spacesC i ++ (k.data ++ ':' :: ' ' :: s.data), renderE i rest, ?_, ?_⟩
    · simp [renderE, renderPair, List.append_assoc]
    · exact (lineStart_facts i k _ hk).1
  | map es2 =>
    refine ⟨spacesC i ++ (k.data ++ [':']), renderE (i + 2) es2 ++ renderE i rest, ?_, ?_⟩
    · simp [renderE, renderPair, List.append_assoc]
    · exact (lineStart_facts i k _ hk).1

theorem parse_renderE :
    ∀ (es : Entries), wfE es = true → ∀ (j f : Nat) (rest : List (List Char)),
      2 * nlE es + 1 ≤ f → hdLt j rest →
      parseE f j (renderE j es ++ rest) = some (es, rest)
  | .nil, _, j, f, rest, hf, hr => by
    obtain ⟨f', rfl⟩ : ∃ f', f = f' + 1 := ⟨f - 1, by omega⟩
    cases rest with
    | nil => rfl
    | cons l t =>
      show parseE (f' + 1) j (l :: t) = some (.nil, l :: t)
      simp only [parseE]
      rw [if_pos (show indentOf l < j from hr)]
  | .cons k (.scalar s) rest', hwf, j, f, rest, hf, hr => by
    obtain ⟨f', rfl⟩ : ∃ f', f = f' + 1 := ⟨f - 1, by omega⟩
    obtain ⟨hk, _, hwrest⟩ := wfE_cons_parts hwf
    have hline : renderE j (.cons k (.scalar s) rest') ++ rest
        = (spacesC j ++ (k.data ++ ':' :: ' ' :: s.data)) :: (renderE j rest' ++ rest) := by
      simp [renderE, renderPair, List.append_assoc]
    rw [hline]
    obtain ⟨hind, hbody⟩ := lineStart_facts j k (':' :: ' ' :: s.data) hk
    have hih : parseE f' j (renderE j rest' ++ rest) = some (rest', rest) :=
      parse_renderE rest' hwrest j f' rest (by simp [nlE, nlPair] at hf ⊢; omega) hr
    simp only [parseE]
    rw [hind, if_neg (lt_irrefl j), if_neg (lt_irrefl j), hbody,
      splitKV_scalar k s (keyOk_shape hk).choose_spec.choose_spec.2.2, hih]
  | .cons k (.map es2) rest', hwf, j, f, rest, hf, hr => by
    obtain ⟨f', rfl⟩ : ∃ f', f = f' + 1 := ⟨f - 1, by omega⟩
    obtain ⟨hk, hwv, hwrest⟩ := wfE_cons_parts hwf
    obtain ⟨hne2, hw2⟩ := wfVal_map_parts hwv
    obtain ⟨k2, v2, r2, hes2⟩ := hne2
    have hline : renderE j (.cons k (.map es2) rest') ++ rest
        = (spacesC j ++ (k.data ++ [':']))
          :: (renderE (j + 2) es2 ++ (renderE j rest' ++ rest)) := by
      simp [renderE, renderPair, List.append_assoc]
    rw [hline]
    obtain ⟨hind, hbody⟩ := lineStart_facts j k [':'] hk
    obtain ⟨l2, t2, hrender2, hind2⟩ :=
      renderE_cons_head (j + 2) k2 v2 r2 (wfE_cons_parts (hes2 ▸ hw2)).1
    have hnest : parseE f' (j + 2) (renderE (j + 2) es2 ++ (renderE j rest' ++ rest))
        = some (es2, renderE j rest' ++ rest) := by
      apply parse_renderE es2 hw2 (j + 2) f' _ (by simp [nlE, nlPair] at hf ⊢; omega)
      cases hre : rest' with
      | nil =>
        simpa [renderE] using hdLt_mono hr (by omega)
      | cons k3 v3 r3 =>
        obtain ⟨l3, t3, hr3, hi3⟩ :=
          renderE_cons_head j k3 v3 r3 (wfE_cons_parts (hre ▸ hwrest)).1
        rw [hr3]
        show indentOf l3 < j + 2
        omega
    have hih : parseE f' j (renderE j rest' ++ rest) = some (rest', rest) :=
      parse_renderE rest' hwrest j f' rest (by simp [nlE, nlPair] at hf ⊢; omega) hr
    simp only [parseE]
    rw [hind, if_neg (lt_irrefl j), if_neg (lt_irrefl j), hbody,
      splitKV_mapKey k (keyOk_shape hk).choose_spec.choose_spec.2.2]
    rw [hes2, hrender2]
    simp only [List.cons_append]
    rw [hind2, if_pos (show j < j + 2 by omega)]
    rw [← List.cons_append, ← hrender2, ← hes2, hnest]
    dsimp only
    rw [hih]

lemma parse_render_roundTrip (es : Entries) (h : wfE es = true) :
    parseDocLines (renderE 0 es) = some es := by
  unfold parseDocLines
  have hp := parse_renderE es h 0 (2 * (renderE 0 es).length + 1) []
    (by rw [renderE_length]) trivial
  rw [List.append_nil] at hp
  rw [hp]

/-- The span of one mapping-pair node as a list of source lines: the key
at column 0, nested lines further indented. -/
def spanLines (k : String) (v : Val) : List (List Char) := renderPair 0 k v

lemma spanLines_eq_renderE_single (k : String) (v : Val) :
    spanLines k v = renderE 0 (.cons k v .nil) := by
  simp [spanLines, renderE]

lemma memE_insertE {k k' : String} {v v' : Val} :
    ∀ (acc : Entries), memE k v (insertE acc k' v') = true →
      (k = k' ∧ v = v') ∨ memE k v acc = true
  | .nil, h => by
    simp only [insertE, memE, Bool.or_eq_true, Bool.and_eq_true, decide_eq_true_eq] at h
    rcases h with ⟨h1, h2⟩ | h
    · exact .inl ⟨h1.symm, h2.symm⟩
    · simp [memE] at h
  | .cons a b rest, h => by
    simp only [insertE] at h
    by_cases ha : a = k'
    · rw [if_pos ha] at h
      simp only [memE, Bool.or_eq_true, Bool.and_eq_true, decide_eq_true_eq] at h
      rcases h with ⟨h1, h2⟩ | h
      · exact .inl ⟨h1.symm.trans ha, h2.symm⟩
      · exact .inr (by simp [memE, h])
    · rw [if_neg ha] at h
      simp only [memE, Bool.or_eq_true, Bool.and_eq_true, decide_eq_true_eq] at h
      rcases h with ⟨h1, h2⟩ | h
      · exact .inr (by simp [memE, h1, h2])
      · rcases memE_insertE rest h with h' | h'
        · exact .inl h'
        · exact .inr (by simp [memE, h'])

lemma hashInsertAll_mem {k : String} {v : Val} :
    ∀ (es acc : Entries), memE k v (hashInsertAll acc es) = true →
      memE k v es = true ∨ memE k v acc = true
  | .nil, _, h => .inr h
  | .cons a b rest, acc, h => by
    simp only [hashInsertAll] at h
    rcases hashInsertAll_mem rest (insertE acc a b) h with h' | h'
    · exact .inl (by simp [memE, h'])
    · rcases memE_insertE acc h' with ⟨h1, h2⟩ | h2
      · exact .inl (by simp [memE, h1, h2])
      · exact .inr h2

lemma processChildren_children_mem {k : String} {v : Val} :
    ∀ (es acc res : Entries), processChildren acc es = .Children res →
      memE k v res = true → memE k v es = true ∨ memE k v acc = true
  | .nil, acc, res, hp, hm => by
    simp only [processChildren] at hp
    injection hp with hp
    exact .inr (hp ▸ hm)
  | .cons a b rest, acc, res, hp, hm => by
    simp only [processChildren] at hp
    by_cases ha : a = "$ref"
    · rw [if_pos ha] at hp
      exact absurd hp (by simp)
    · rw [if_neg ha] at hp
      rcases processChildren_children_mem rest (insertE acc a b) res hp hm with h' | h'
      · exact .inl (by simp [memE, h'])
      · rcases memE_insertE acc h' with ⟨h1, h2⟩ | h2
        · exact .inl (by simp [memE, h1, h2])
        · exact .inr h2

lemma wfE_findE {key : String} :
    ∀ {doc : Entries} {v : Val}, wfE doc = true → findE key doc = some v →
      wfVal v = true
  | .nil, _, _, h => by simp [findE] at h
  | .cons a b rest, v, hwf, h => by
    obtain ⟨_, hb, hrest⟩ := wfE_cons_parts hwf
    unfold findE at h
    by_cases ha : a = key
    · rw [if_pos ha] at h
      injection h with h
      exact h ▸ hb
    · rw [if_neg ha] at h
      exact wfE_findE hrest h

lemma wf_childPairs {v : Val} (h : wfVal v = true) : wfE (childPairs v) = true := by
  cases v with
  | scalar s => rfl
  | map es => exact (wfVal_map_parts h).2

lemma wfE_memE {k : String} {v : Val} :
    ∀ {es : Entries}, wfE es = true → memE k v es = true →
      keyOk k = true ∧ wfVal v = true
  | .nil, _, hm => by simp [memE] at hm
  | .cons a b rest, hwf, hm => by
    obtain ⟨ha, hb, hrest⟩ := wfE_cons_parts hwf
    simp only [memE, Bool.or_eq_true, Bool.and_eq_true, decide_eq_true_eq] at hm
    rcases hm with ⟨h1, h2⟩ | hm
    · exact ⟨h1 ▸ ha, h2 ▸ hb⟩
    · exact wfE_memE hrest hm

/-- C7: whenever `get_children_by_key` yields `Children`, every entry of
the result binds an immediate child key of the matched value to that
child's full mapping-pair node — the key together with its value — and
the textual span of that pair (its key at column 0) re-parses as a
standalone one-entry mapping containing exactly the same pair. -/
theorem c7_children_spans_reparse (key : String) (doc : Entries) (v : Val)
    (es : Entries) (hwf : wfE doc = true) (hfind : findE key doc = some v)
    (hch : get_children_by_key key doc = .Children es)
    (k : String) (v' : Val) (hm : memE k v' es = true) :
    memE k v' (childPairs v) = true ∧
    parseDocLines (spanLines k v') = some (.cons k v' .nil) := by
  have hwv : wfVal v = true := wfE_findE hwf hfind
  have hwcp : wfE (childPairs v) = true := wf_childPairs hwv
  unfold get_children_by_key at hch
  rw [hfind] at hch
  have hmem : memE k v' (childPairs v) = true := by
    rcases processChildren_children_mem (childPairs v) .nil es hch hm with h | h
    · exact h
    · simp [memE] at h
  obtain ⟨hk', hwv'⟩ := wfE_memE hwcp hmem
  refine ⟨hmem, ?_⟩
  rw [spanLines_eq_renderE_single]
  exact parse_render_roundTrip _ (by simp [wfE, hk', hwv'])

/- ## Operation-identifier extraction (C6, C8) -/

def joinPat (pat : List Char) : List (List Char) → List Char
  | [] => []
  | [l] => l
  | l :: ls => l ++ pat ++ joinPat pat ls

/-- The extraction the spec describes: split the key-prefixed value text
on the FIRST occurrence of `operationId:` and trim the remainder (the
text after that first occurrence, reassembled if the pattern occurs
again later). -/
def specFirstSplitExtract (span : String) : String :=
  match splitSub "operationId:".data span.data with
  | [] => ⟨trimChars span.data⟩
  | [whole] => ⟨trimChars whole⟩
  | _ :: seg :: rest => ⟨trimChars (joinPat "operationId:".data (seg :: rest))⟩

lemma provGet_single_root (d : Entries) : provGet [("#", d)] "#" = some d := by
  simp [provGet, List.find?]

lemma findE_cons_self (k : String) (v : Val) (rest : Entries) :
    findE k (.cons k v rest) = some v := by
  simp [findE]

lemma gcbk_single (k : String) (v : Val) :
    get_children_by_key k (.cons k v .nil) = processChildren .nil (childPairs v) := by
  simp [get_children_by_key, findE]

lemma processChildren_single (k : String) (v : Val) (h : k ≠ "$ref") :
    processChildren .nil (.cons k v .nil) = .Children (.cons k v .nil) := by
  simp [processChildren, h, insertE]

lemma spanString_operationId (s : String) :
    spanString "operationId" (.scalar s) = "operationId: " ++ s := rfl

/-- C6 counterexample: on the document whose single operation has
`operationId: aoperationId:b` — the scalar value contains a second
occurrence of the substring `operationId:` — the walker extracts `"b"`
(the text after the LAST occurrence, from `.split(..).last()`), while the
first-occurrence split the claim describes would give
`"aoperationId:b"`. -/
theorem c6_first_split_counterexample :
    get_operation_nodes id
      [("#", .cons "paths"
          (.map (.cons "/pets"
            (.map (.cons "get"
              (.map (.cons "operationId" (.scalar "aoperationId:b") .nil)) .nil)) .nil)) .nil)] =
      .ok ["b"] ∧
    specFirstSplitExtract (spanString "operationId" (.scalar "aoperationId:b")) =
      "aoperationId:b" ∧
    ("b" : String) ≠ "aoperationId:b" := by
  exact ⟨by decide, by decide, by decide⟩

/-- C6 amended: the walker extracts the operation identifier from the
key-prefixed value text `"operationId: <value>"` by splitting on the
substring `operationId:` and taking the segment after its LAST
occurrence, trimmed (for values that contain no further occurrence of
the substring this coincides with the first-occurrence split the spec
describes). -/
theorem c6_last_split_amended (p m s : String)
    (reorder : List (String × Val) → List (String × Val))
    (hperm : ∀ l : List (String × Val), List.Perm (reorder l) l)
    (hp : p ≠ "$ref") (hm : m ≠ "$ref") :
    get_operation_nodes reorder
      [("#", .cons "paths"
          (.map (.cons p
            (.map (.cons m
              (.map (.cons "operationId" (.scalar s) .nil)) .nil)) .nil)) .nil)] =
      .ok [⟨trimChars ((splitSub "operationId:".data
        ("operationId: " ++ s).data).getLastD [])⟩] := by
  have hro : ∀ (x : String × Val), reorder [x] = [x] :=
    fun x => List.perm_singleton.mp (hperm [x])
  have hop : ("operationId" : String) ≠ "$ref" := by decide
  simp only [get_operation_nodes]
  rw [provGet_single_root]
  dsimp only
  rw [gcbk_single]
  simp only [childPairs]
  rw [processChildren_single p _ hp]
  simp only [resolveChildren, toListE]
  rw [hro]
  simp only [pathsLoop]
  rw [gcbk_single]
  simp only [childPairs]
  rw [processChildren_single m _ hm]
  simp only [resolveChildren, toListE]
  rw [hro]
  simp only [methodsLoop]
  rw [gcbk_single]
  simp only [childPairs]
  rw [processChildren_single "operationId" _ hop]
  simp only [resolveChildren, findE_cons_self]
  rw [spanString_operationId]
  simp [extractOp]

/-- Witness for the amended C6 at `operationId: getPets`. -/
theorem c6_last_split_amended_witness :
    ("/pets" : String) ≠ "$ref" ∧ ("get" : String) ≠ "$ref" ∧
    get_operation_nodes id
      [("#", .cons "paths"
          (.map (.cons "/pets"
            (.map (.cons "get"
              (.map (.cons "operationId" (.scalar "getPets") .nil)) .nil)) .nil)) .nil)] =
      .ok ["getPets"] := by
  refine ⟨by decide, by decide, ?_⟩
  have h := c6_last_split_amended "/pets" "get" "getPets" id
    (fun l => List.Perm.refl l) (by decide) (by decide)
  rw [h]
  decide

lemma processChildren_pair (k1 k2 : String) (v1 v2 : Val) (h1 : k1 ≠ "$ref")
    (h2 : k2 ≠ "$ref") (hne : k1 ≠ k2) :
    processChildren .nil (.cons k1 v1 (.cons k2 v2 .nil)) =
      .Children (.cons k1 v1 (.cons k2 v2 .nil)) := by
  simp [processChildren, h1, h2, insertE, hne]

lemma perm_pair {α : Type _} : ∀ {l : List α} {a b : α},
    List.Perm l [a, b] → l = [a, b] ∨ l = [b, a] := by
  intro l a b h
  have hlen : l.length = 2 := by simpa using h.length_eq
  match l, hlen with
  | [x, y], _ =>
    have hx : x ∈ [a, b] := h.mem_iff.mp (by simp)
    simp only [List.mem_cons, List.mem_singleton, List.not_mem_nil, or_false] at hx
    rcases hx with rfl | rfl
    · rw [List.perm_singleton.mp h.cons_inv]
      exact .inl rfl
    · have h2 : List.Perm [x, y] [x, a] := h.trans (List.Perm.swap x a [])
      rw [List.perm_singleton.mp h2.cons_inv]
      exact .inr rfl

/-- C8 counterexample: Rust `HashMap` iteration order is unspecified;
`List.reverse` is one legal iteration order (it is a permutation of the
entries).  Under it, the walker on
`paths: {/pets: {get: {operationId: getPets}, post: {operationId:
postPets}}}` returns `["postPets", "getPets"]`, not the claimed
`["getPets", "postPets"]`: declaration order is not guaranteed. -/
theorem c8_order_counterexample :
    (∀ l : List (String × Val), List.Perm (List.reverse l) l) ∧
    get_operation_nodes List.reverse
      [("#", .cons "paths"
          (.map (.cons "/pets"
            (.map (.cons "get"
              (.map (.cons "operationId" (.scalar "getPets") .nil))
              (.cons "post"
                (.map (.cons "operationId" (.scalar "postPets") .nil)) .nil))) .nil)) .nil)] =
      .ok ["postPets", "getPets"] ∧
    (["postPets", "getPets"] : List String) ≠ ["getPets", "postPets"] := by
  exact ⟨fun l => List.reverse_perm l, by decide, by decide⟩

/-- C8 amended: on
`paths: {/pets: {get: {operationId: getPets}, post: {operationId:
postPets}}}` the operation walker succeeds and returns exactly the
operation identifiers `getPets` and `postPets` — as a permutation of
`["getPets", "postPets"]` whose order depends on the unspecified
`HashMap` iteration order. -/
theorem c8_operations_up_to_order
    (reorder : List (String × Val) → List (String × Val))
    (hperm : ∀ l : List (String × Val), List.Perm (reorder l) l) :
    ∃ out, get_operation_nodes reorder
      [("#", .cons "paths"
          (.map (.cons "/pets"
            (.map (.cons "get"
              (.map (.cons "operationId" (.scalar "getPets") .nil))
              (.cons "post"
                (.map (.cons "operationId" (.scalar "postPets") .nil)) .nil))) .nil)) .nil)] =
      .ok out ∧ List.Perm out ["getPets", "postPets"] := by
  have hro : ∀ (x : String × Val), reorder [x] = [x] :=
    fun x => List.perm_singleton.mp (hperm [x])
  simp only [get_operation_nodes]
  rw [provGet_single_root]
  dsimp only
  rw [gcbk_single]
  simp only [childPairs]
  rw [processChildren_single "/pets" _ (by decide)]
  simp only [resolveChildren, toListE]
  rw [hro]
  simp only [pathsLoop]
  rw [gcbk_single]
  simp only [childPairs]
  rw [processChildren_pair "get" "post" _ _ (by decide) (by decide) (by decide)]
  simp only [resolveChildren, toListE]
  rcases perm_pair
      (hperm [("get", .map (.cons "operationId" (.scalar "getPets") .nil)),
              ("post", .map (.cons "operationId" (.scalar "postPets") .nil))])
    with h | h
  · rw [h]
    exact ⟨["getPets", "postPets"], by decide, by decide⟩
  · rw [h]
    exact ⟨["postPets", "getPets"], by decide, by decide⟩

/- ## Lemmas about the pre-load map (C4, C10) -/

lemma lookupS_cons (a b q : String) (rest : List (String × String)) :
    lookupS ((a, b) :: rest) q = if a = q then some b else lookupS rest q := by
  by_cases h : a = q
  · simp [lookupS, List.find?, h]
  · simp [lookupS, List.find?, h]

lemma lookupS_insertKV :
    ∀ (m : List (String × String)) (k v q : String),
      lookupS (insertKV m k v) q = if q = k then some v else lookupS m q
  | [], k, v, q => by
    simp only [insertKV, lookupS_cons]
    by_cases h : k = q
    · rw [if_pos h, if_pos h.symm]
    · rw [if_neg h, if_neg (fun hc : q = k => h hc.symm)]
  | (a, b) :: rest, k, v, q => by
    simp only [insertKV]
    by_cases hak : a = k
    · rw [if_pos hak, lookupS_cons, lookupS_cons]
      subst hak
      by_cases hq : a = q
      · rw [if_pos hq, if_pos hq.symm]
      · rw [if_neg hq, if_neg (fun hc : q = a => hq hc.symm), if_neg hq]
    · rw [if_neg hak, lookupS_cons, lookupS_cons, lookupS_insertKV rest k v q]
      by_cases hq : a = q
      · rw [if_pos hq, if_neg (fun hc : q = k => hak (hq.trans hc)), if_pos hq]
      · rw [if_neg hq]
        by_cases hqk : q = k
        · rw [if_pos hqk, if_pos hqk]
        · rw [if_neg hqk, if_neg hqk, if_neg hq]

lemma loadRefs_stable (read canon : String → Option String) (wd : String) :
    ∀ (rs : List String) (m m' : List (String × String)),
      loadRefs read canon wd rs m = some m' →
      ∀ q v, read q = some v → lookupS m q = some v → lookupS m' q = some v
  | [], m, m', h, q, v, _, hl => by
    simp only [loadRefs] at h
    injection h with h
    exact h ▸ hl
  | r :: rs, m, m', h, q, v, hr, hl => by
    simp only [loadRefs] at h
    cases hc : canon (pathJoin wd r) with
    | none => rw [hc] at h; exact absurd h (by simp)
    | some full =>
      simp only [hc] at h
      cases hrd : read full with
      | none => rw [hrd] at h; exact absurd h (by simp)
      | some c =>
        simp only [hrd] at h
        refine loadRefs_stable read canon wd rs _ m' h q v hr ?_
        rw [lookupS_insertKV]
        by_cases hq : q = full
        · subst hq
          rw [hr] at hrd
          injection hrd with hrd
          rw [if_pos rfl, hrd]
        · rw [if_neg hq]
          exact hl

lemma loadRefs_keeps_hash (read canon : String → Option String) (wd : String)
    (hne : ∀ s f, canon s = some f → f ≠ "#") :
    ∀ (rs : List String) (m m' : List (String × String)),
      loadRefs read canon wd rs m = some m' →
      lookupS m' "#" = lookupS m "#"
  | [], m, m', h => by
    simp only [loadRefs] at h
    injection h with h
    rw [h]
  | r :: rs, m, m', h => by
    simp only [loadRefs] at h
    cases hc : canon (pathJoin wd r) with
    | none => rw [hc] at h; exact absurd h (by simp)
    | some full =>
      simp only [hc] at h
      cases hrd : read full with
      | none => rw [hrd] at h; exact absurd h (by simp)
      | some c =>
        simp only [hrd] at h
        rw [loadRefs_keeps_hash read canon wd hne rs _ m' h]
        rw [lookupS_insertKV, if_neg (fun hq : "#" = full => hne _ _ hc hq.symm)]

lemma loadRefs_domain (read canon : String → Option String) (wd : String) :
    ∀ (rs : List String) (m m' : List (String × String)),
      loadRefs read canon wd rs m = some m' →
      ∀ q, (lookupS m' q).isSome = true ↔
        ((lookupS m q).isSome = true ∨ ∃ r ∈ rs, canon (pathJoin wd r) = some q)
  | [], m, m', h, q => by
    simp only [loadRefs] at h
    injection h with h
    simp [h]
  | r :: rs, m, m', h, q => by
    simp only [loadRefs] at h
    cases hc : canon (pathJoin wd r) with
    | none => rw [hc] at h; exact absurd h (by simp)
    | some full =>
      simp only [hc] at h
      cases hrd : read full with
      | none => rw [hrd] at h; exact absurd h (by simp)
      | some c =>
        simp only [hrd] at h
        rw [loadRefs_domain read canon wd rs _ m' h q]
        rw [lookupS_insertKV]
        by_cases hq : q = full
        · subst hq
          simp only [if_pos rfl]
          constructor
          · intro _
            exact .inr ⟨r, by simp, hc⟩
          · intro _
            simp
        · rw [if_neg hq]
          constructor
          · rintro (hm | ⟨r', hr', hc'⟩)
            · exact .inl hm
            · exact .inr ⟨r', by simp [hr'], hc'⟩
          · rintro (hm | ⟨r', hr', hc'⟩)
            · exact .inl hm
            · simp only [List.mem_cons] at hr'
              rcases hr' with rfl | hr'
              · rw [hc] at hc'
                injection hc' with hc'
                exact absurd hc'.symm hq
              · exact .inr ⟨r', hr', hc'⟩

lemma loadRefs_loads (read canon : String → Option String) (wd : String) :
    ∀ (rs : List String) (m m' : List (String × String)),
      loadRefs read canon wd rs m = some m' →
      ∀ r ∈ rs, ∃ full c, canon (pathJoin wd r) = some full ∧
        read full = some c ∧ lookupS m' full = some c
  | [], _, _, _, r, hr => absurd hr (List.not_mem_nil r)
  | r0 :: rs, m, m', h, r, hr => by
    simp only [loadRefs] at h
    cases hc : canon (pathJoin wd r0) with
    | none => rw [hc] at h; exact absurd h (by simp)
    | some full =>
      simp only [hc] at h
      cases hrd : read full with
      | none => rw [hrd] at h; exact absurd h (by simp)
      | some c =>
        simp only [hrd] at h
        simp only [List.mem_cons] at hr
        rcases hr with rfl | hr
        · refine ⟨full, c, hc, hrd, ?_⟩
          refine loadRefs_stable read canon wd rs _ m' h full c hrd ?_
          rw [lookupS_insertKV, if_pos rfl]
        · exact loadRefs_loads read canon wd rs _ m' h r hr

lemma lookupS_base (p content q : String) :
    lookupS (insertKV (insertKV [] p content) "#" content) q =
      if q = "#" then some content else if q = p then some content else none := by
  rw [lookupS_insertKV, lookupS_insertKV]
  by_cases h1 : q = "#" <;> by_cases h2 : q = p <;> simp [h1, h2, lookupS, List.find?]

/-- C4: after a successful `from_open_api_yaml`, (1) the content map's
domain is exactly the root path, the synthetic marker `#`, and the
canonical resolutions of the root document's own non-fragment `$ref`
values — references are discovered in the root document only;
(2) each such reference is eagerly resolved against the root's
directory, canonicalized, read and cached; (3) fetching any other
document — in particular a reference that occurs only inside a
referenced document — fails (`get_content` panics / returns `none`). -/
theorem c4_preload_root_only (read canon : String → Option String) (p : String)
    (st : ProviderState) (wd content : String)
    (h : from_open_api_yaml read canon p = some st)
    (hwd : parentDir p = some wd) (hc : read p = some content) :
    (∀ q, (lookupS st.contents q).isSome = true ↔
      (q = p ∨ q = "#" ∨
        ∃ r ∈ (find_refs content).filter (fun r => !startsWithPat ['#'] r.data),
          canon (pathJoin wd r) = some q)) ∧
    (∀ r ∈ (find_refs content).filter (fun r => !startsWithPat ['#'] r.data),
      ∃ full c, canon (pathJoin wd r) = some full ∧ read full = some c ∧
        lookupS st.contents full = some c) ∧
    (∀ q full, q ≠ "#" → canon (pathJoin wd q) = some full →
      full ≠ p → full ≠ "#" →
      (∀ r ∈ (find_refs content).filter (fun r => !startsWithPat ['#'] r.data),
        canon (pathJoin wd r) ≠ some full) →
      get_content canon st q = none) := by
  unfold from_open_api_yaml at h
  simp only [hwd, hc] at h
  cases hload : loadRefs read canon wd
      ((find_refs content).filter (fun r => !startsWithPat ['#'] r.data))
      (insertKV (insertKV [] p content) "#" content) with
  | none => rw [hload] at h; exact absurd h (by simp)
  | some m =>
    simp only [hload] at h
    injection h with h
    subst h
    have hdom := loadRefs_domain read canon wd _ _ m hload
    have hloads := loadRefs_loads read canon wd _ _ m hload
    have hbase : ∀ q, (lookupS (insertKV (insertKV [] p content) "#" content) q).isSome
        = true ↔ (q = "#" ∨ q = p) := by
      intro q
      rw [lookupS_base]
      by_cases h1 : q = "#" <;> by_cases h2 : q = p <;> simp [h1, h2]
    have hdom' : ∀ q, (lookupS m q).isSome = true ↔
        (q = p ∨ q = "#" ∨
          ∃ r ∈ (find_refs content).filter (fun r => !startsWithPat ['#'] r.data),
            canon (pathJoin wd r) = some q) := by
      intro q
      rw [hdom q, hbase q]
      tauto
    refine ⟨hdom', ?_, ?_⟩
    · exact hloads
    · intro q full hq hcanon hfp hfh hnone
      have hnot : ¬ (lookupS m full).isSome = true := by
        rw [hdom' full]
        rintro (hm | hm | ⟨r, hr, hc'⟩)
        · exact hfp hm
        · exact hfh hm
        · exact hnone r hr hc'
      unfold get_content
      rw [if_neg hq]
      simp only [hwd, hcanon]
      cases hl : lookupS m full with
      | none => rfl
      | some c => rw [hl] at hnot; simp at hnot

/-- C10: after a successful `from_open_api_yaml p`, the contents map
binds both the root path `p` and the synthetic marker `#` to the same
text (the root document's content), and `get_content "#"` returns it.
The embedding is pure, so the map is never mutated after construction:
`get_content` takes the state and returns only a value. -/
theorem c10_root_alias (read canon : String → Option String) (p content : String)
    (st : ProviderState)
    (h : from_open_api_yaml read canon p = some st)
    (hc : read p = some content)
    (hne : ∀ s f, canon s = some f → f ≠ "#") :
    st.root_file = p ∧
    lookupS st.contents p = some content ∧
    lookupS st.contents "#" = some content ∧
    get_content canon st "#" = some content := by
  unfold from_open_api_yaml at h
  cases hwd : parentDir p with
  | none => rw [hwd] at h; exact absurd h (by simp)
  | some wd =>
    simp only [hwd, hc] at h
    cases hload : loadRefs read canon wd
        ((find_refs content).filter (fun r => !startsWithPat ['#'] r.data))
        (insertKV (insertKV [] p content) "#" content) with
    | none => rw [hload] at h; exact absurd h (by simp)
    | some m =>
      simp only [hload] at h
      injection h with h
      subst h
      have hbasep : lookupS (insertKV (insertKV [] p content) "#" content) p
          = some content := by
        rw [lookupS_base]
        by_cases hp : p = "#" <;> simp [hp]
      have hp' : lookupS m p = some content :=
        loadRefs_stable read canon wd _ _ m hload p content hc hbasep
      have hh' : lookupS m "#" = some content := by
        rw [loadRefs_keeps_hash read canon wd hne _ _ m hload, lookupS_base]
        simp
      refine ⟨rfl, hp', hh', ?_⟩
      unfold get_content
      rw [if_pos rfl]
      exact hp'

/- ## Witness fixtures -/

def pathEntriesFixture : Entries :=
  .cons "/pets" (.map (.cons "get" (.scalar "x") .nil))
    (.cons "/pets/{petId}" (.map (.cons "get" (.scalar "y") .nil)) .nil)

/-- Witness for C5: `paths: {$ref: 'P.yaml'}` with `P.yaml` holding the
two path entries gives the same walker result as the inlined form. -/
theorem c5_ref_inline_same_paths_witness :
    findE "$ref" pathEntriesFixture = none ∧
    stripQuotes "'P.yaml'" ≠ "#" ∧
    get_path_nodes id
      [("#", .cons "paths" (.map (.cons "$ref" (.scalar "'P.yaml'") .nil)) .nil),
       (stripQuotes "'P.yaml'", pathEntriesFixture)] =
    get_path_nodes id [("#", .cons "paths" (.map pathEntriesFixture) .nil)] :=
  ⟨by decide, by decide,
    c5_ref_inline_same_paths pathEntriesFixture "'P.yaml'" id (by decide) (by decide)⟩

def c7Inner : Val := .map (.cons "get" (.scalar "x") .nil)

def c7Paths : Entries := .cons "/pets" c7Inner .nil

def c7Doc : Entries := .cons "paths" (.map c7Paths) .nil

/-- Witness for C7 on `paths: {/pets: {get: x}}`: the `Children` entry
for `/pets` is the whole pair, and its span re-parses to the same
one-entry mapping. -/
theorem c7_children_spans_reparse_witness :
    wfE c7Doc = true ∧
    findE "paths" c7Doc = some (.map c7Paths) ∧
    get_children_by_key "paths" c7Doc = .Children c7Paths ∧
    memE "/pets" c7Inner c7Paths = true ∧
    (memE "/pets" c7Inner (childPairs (.map c7Paths)) = true ∧
      parseDocLines (spanLines "/pets" c7Inner) = some (.cons "/pets" c7Inner .nil)) :=
  ⟨by decide, by decide, by decide, by decide,
    c7_children_spans_reparse "paths" c7Doc (.map c7Paths) c7Paths
      (by decide) (by decide) (by decide) "/pets" c7Inner (by decide)⟩

/-- Witness for the amended C8, with the identity iteration order. -/
theorem c8_operations_up_to_order_witness :
    ∃ out, get_operation_nodes id
      [("#", .cons "paths"
          (.map (.cons "/pets"
            (.map (.cons "get"
              (.map (.cons "operationId" (.scalar "getPets") .nil))
              (.cons "post"
                (.map (.cons "operationId" (.scalar "postPets") .nil)) .nil))) .nil)) .nil)] =
      .ok out ∧ List.Perm out ["getPets", "postPets"] :=
  c8_operations_up_to_order id (fun l => List.Perm.refl l)

def rootText : String := "paths:\n  /pets:\n    $ref: 'resources/pets.yaml'"

def demoRead : String → Option String := fun q =>
  if q = "/test/root.yaml" then some rootText
  else if q = "/test/resources/pets.yaml" then some "x: y"
  else none

def demoCanon : String → Option String := fun q =>
  if q = "#" then none else some q

def demoState : ProviderState :=
  ⟨[("/test/root.yaml", rootText), ("#", rootText),
    ("/test/resources/pets.yaml", "x: y")], "/test/root.yaml"⟩

lemma demoCanon_ne_hash : ∀ s f, demoCanon s = some f → f ≠ "#" := by
  intro s f h
  unfold demoCanon at h
  by_cases hs : s = "#"
  · rw [if_pos hs] at h
    exact absurd h (by simp)
  · rw [if_neg hs] at h
    injection h with h
    subst h
    exact hs

/-- Witness for C4: the root references only `resources/pets.yaml`,
which is pre-loaded; the second-level path `b.yaml` was never
discovered, so fetching it fails. -/
theorem c4_preload_root_only_witness :
    from_open_api_yaml demoRead demoCanon "/test/root.yaml" = some demoState ∧
    get_content demoCanon demoState "b.yaml" = none := by
  refine ⟨by decide, ?_⟩
  exact (c4_preload_root_only demoRead demoCanon "/test/root.yaml" demoState
    "/test" rootText (by decide) (by decide) (by decide)).2.2 "b.yaml" "/test/b.yaml"
    (by decide) (by decide) (by decide) (by decide) (by decide)

/-- Witness for C10 on the same fixture. -/
theorem c10_root_alias_witness :
    from_open_api_yaml demoRead demoCanon "/test/root.yaml" = some demoState ∧
    (demoState.root_file = "/test/root.yaml" ∧
      lookupS demoState.contents "/test/root.yaml" = some rootText ∧
      lookupS demoState.contents "#" = some rootText ∧
      get_content demoCanon demoState "#" = some rootText) :=
  ⟨by decide, c10_root_alias demoRead demoCanon "/test/root.yaml" rootText demoState
    (by decide) (by decide) demoCanon_ne_hash⟩
